import Mathlib

/-!
Verification of the rule-reduction core of the `rbac` package
(`pkg/rbac/rbac.go` of stolostron/rbac-api-utils).

The Go code is embedded shallowly:

* `schema.GroupResource` and `authorizationv1.ResourceRule` become plain
  structures of strings and string lists.
* a Go `map[string][]string` is modelled as a canonical association list
  (`AccessMap`): keys in first-insertion order, each key at most once.
  `m[k]` on a missing key yields the zero value `nil`, so `lookupMap`
  returns `[]` for a missing key; assignment `m[k] = v` is `insertMap`.
* `slices.Contains xs x` is list membership `x ∈ xs`.
* a Go `map[string]bool` used as a set (`metricsAccessMap`) is modelled by
  its key set in first-insertion order (`metricsNamespaceKeys`); since Go
  map iteration order is unspecified, the slice the code builds by ranging
  over that map is *some* permutation of this key set, which is captured
  by the relation `possibleMetricsResult`.
* the one network call (`SelfSubjectRulesReviews().Create`) is abstracted
  as a function argument returning `Except`; the pure processing functions
  take the retrieved rule list directly.
-/

/-- schema.GroupResource: API group and resource type of a target. -/
structure GroupResource where
  Group : String
  Resource : String
  deriving DecidableEq, Repr

/-- authorizationv1.ResourceRule: one rule returned by the authority,
holding API groups, resource types, resource names and verbs. -/
structure ResourceRule where
  APIGroups : List String
  Resources : List String
  ResourceNames : List String
  Verbs : List String
  deriving DecidableEq, Repr

/-- ACLConfig (rbac.go:23-28): the access-control configuration, an API
group/resource pair together with a verb marker string. -/
structure ACLConfig where
  groupRes : GroupResource
  verb : String
  deriving DecidableEq, Repr

/-- MetricsACLConfig (rbac.go:32-38): the well-known configuration for
observability-metrics access on managed clusters. -/
def MetricsACLConfig : ACLConfig :=
  { groupRes := { Group := "cluster.open-cluster-management.io", Resource := "managedclusters" }
    verb := "metrics/" }

/-- A Go `map[string][]string` in canonical form: an association list whose
keys appear at most once, in first-insertion order. -/
abbrev AccessMap := List (String × List String)

/-- Reading `m[k]` from a Go `map[string][]string`: the stored slice, or the
zero value (empty) when the key is absent. -/
def lookupMap (m : AccessMap) (k : String) : List String :=
  match m with
  | [] => []
  | (k2, v) :: rest => if k2 = k then v else lookupMap rest k

/-- Writing `m[k] = v` to a Go map: replace the value of an existing key in
place, or append a fresh key. -/
def insertMap (m : AccessMap) (k : String) (v : List String) : AccessMap :=
  match m with
  | [] => [(k, v)]
  | (k2, w) :: rest => if k2 = k then (k2, v) :: rest else (k2, w) :: insertMap rest k v

/-- The keys of the map, in insertion order. -/
abbrev mapKeys (m : AccessMap) : List String := m.map Prod.fst

/-- The `_, ok := m[k]` test on a Go map. -/
abbrev containsKeyMap (m : AccessMap) (k : String) : Prop := k ∈ mapKeys m

/-- addUniqueItems (rbac.go:269-285): appends each of itemsToAdd to itemlist
unless it is already present. -/
def addUniqueItems (itemlist : List String) (itemsToAdd : List String) : List String :=
  itemsToAdd.foldl (fun resultList item => if item ∈ resultList then resultList else resultList ++ [item]) itemlist

/-- The rule filter of rbac.go:216-219: the rule's apiGroups contain the
target group or "*", and its resources contain the target resource or "*". -/
abbrev ruleMatchesGroupResource (rule : ResourceRule) (gr : GroupResource) : Prop :=
  (gr.Group ∈ rule.APIGroups ∨ "*" ∈ rule.APIGroups) ∧
  (gr.Resource ∈ rule.Resources ∨ "*" ∈ rule.Resources)

/-- The body of the per-rule loop of GetResourceAccess (rbac.go:211-250),
applied to the accumulator map for one rule. -/
def applyResourceRule (resourceAccessResults : AccessMap) (rule : ResourceRule)
    (gr : GroupResource) (resourcenames : List String) : AccessMap :=
  if ¬ ruleMatchesGroupResource rule gr then
    resourceAccessResults
  else if rule.ResourceNames.length ≠ 0 then
    -- the rule restricts to specific resource names (rbac.go:226-235)
    rule.ResourceNames.foldl (fun acc ruleResourceName =>
      if resourcenames.length = 0 ∨ ruleResourceName ∈ resourcenames then
        insertMap acc ruleResourceName (addUniqueItems (lookupMap acc ruleResourceName) rule.Verbs)
      else acc) resourceAccessResults
  else if resourcenames.length ≠ 0 then
    -- unrestricted rule, specific names requested (rbac.go:238-244)
    resourcenames.foldl (fun acc rname =>
      insertMap acc rname (addUniqueItems (lookupMap acc rname) rule.Verbs)) resourceAccessResults
  else
    -- unrestricted rule, no names requested (rbac.go:245-248)
    insertMap resourceAccessResults "*" (addUniqueItems (lookupMap resourceAccessResults "*") rule.Verbs)

/-- GetResourceAccess (rbac.go:197-265), given the rule list already
retrieved by makeSubjectRulesReviewForUser: folds the per-rule loop over the
rules, then adds an explicit empty entry for every requested resource name
still missing (rbac.go:254-260). -/
def GetResourceAccess (resourceRules : List ResourceRule) (gr : GroupResource)
    (resourcenames : List String) : AccessMap :=
  let afterRules := resourceRules.foldl
    (fun acc rule => applyResourceRule acc rule gr resourcenames) []
  if resourcenames.length ≠ 0 then
    resourcenames.foldl (fun acc rname =>
      if containsKeyMap acc rname then acc else insertMap acc rname []) afterRules
  else afterRules

/-- strings.HasPrefix from the Go standard library, on the character
sequence of the strings. -/
def hasPre (s pre : String) : Bool :=
  pre.data.isPrefixOf s.data

/-- strings.TrimPrefix from the Go standard library: s without the given
leading string, or s unchanged when it does not start with it. -/
def trimLeading (s pre : String) : String :=
  if hasPre s pre then String.mk (s.data.drop pre.data.length) else s

/-- Inserting a key into a Go `map[string]bool` used as a set, keeping the
canonical first-insertion order of the key set. -/
def addKeyOnce (m : List String) (k : String) : List String :=
  if k ∈ m then m else m ++ [k]

/-- The key set of `metricsAccessMap` built at rbac.go:158-168 for one
cluster's acl slice: the suffix of every verb starting with
MetricsACLConfig.verb, plus "*" for a verb that is exactly "*". -/
def metricsNamespaceKeys (clusteracls : List String) : List String :=
  clusteracls.foldl (fun metricsAccessMap acl =>
    if hasPre acl MetricsACLConfig.verb then
      addKeyOnce metricsAccessMap (trimLeading acl MetricsACLConfig.verb)
    else if acl = "*" then
      addKeyOnce metricsAccessMap "*"
    else metricsAccessMap) []

/-- The decoding loop of GetMetricsAccess (rbac.go:152-181): for each
cluster entry of the resource-access map, compute its metrics namespaces and
keep the cluster when that list is non-empty or the cluster was explicitly
requested. The namespace list is kept in canonical key-set order; the order
actually produced by ranging over the Go map is any permutation of it (see
possibleMetricsResult). -/
def metricsAccessFromACLs (resourceACLs : AccessMap) (clusters : List String) : AccessMap :=
  resourceACLs.foldl (fun metricsAccessResults entry =>
    let nsWithMetricsAccess := metricsNamespaceKeys entry.2
    if nsWithMetricsAccess.length > 0 ∨ entry.1 ∈ clusters then
      insertMap metricsAccessResults entry.1 nsWithMetricsAccess
    else metricsAccessResults) []

/-- GetMetricsAccess (rbac.go:134-186), given the rule list already
retrieved for the user: all ACLs on managed clusters are computed by
GetResourceAccess and then reduced to metrics namespaces per cluster. -/
def GetMetricsAccess (resourceRules : List ResourceRule) (clusters : List String) : AccessMap :=
  metricsAccessFromACLs (GetResourceAccess resourceRules MetricsACLConfig.groupRes clusters) clusters

/-- The condition under which a rule that matches the target group/resource
contributes its verbs to the entry of resource name n (rbac.go:226-248). -/
abbrev ruleNameCond (rule : ResourceRule) (resourcenames : List String) (n : String) : Prop :=
  if rule.ResourceNames.length ≠ 0 then
    n ∈ rule.ResourceNames ∧ (resourcenames.length = 0 ∨ n ∈ resourcenames)
  else if resourcenames.length ≠ 0 then
    n ∈ resourcenames
  else n = "*"

/-- A possible return value of GetMetricsAccess. The namespace slice of each
cluster is built at rbac.go:170-173 by ranging over the Go map
`metricsAccessMap`, and Go map iteration order is unspecified, so a run of
GetMetricsAccess may return each cluster's namespaces in any order: a
possible result is the canonical one with each value list permuted. -/
def possibleMetricsResult (resourceRules : List ResourceRule) (clusters : List String)
    (result : AccessMap) : Prop :=
  List.Forall₂ (fun p q => p.1 = q.1 ∧ p.2.Perm q.2) result
    (GetMetricsAccess resourceRules clusters)

/-- rest.Config, reduced to the fields the constructor copies. -/
structure RestConfig where
  Host : String
  BearerToken : String
  deriving DecidableEq, Repr

/-- kubernetes.Interface, reduced to a plain handle value. -/
structure KubeClient where
  id : String
  deriving DecidableEq, Repr

/-- AccessReviewer (rbac.go:43-46): holds the configured kube config or
client. A nil Go pointer/interface is `none`. -/
structure AccessReviewer where
  kubeConfig : Option RestConfig
  kubeClient : Option KubeClient
  deriving DecidableEq, Repr

/-- NewAccessReviewer (rbac.go:61-81): requires exactly one of kConfig and
kClient to be set; stores a copy of the config, or the client. -/
def NewAccessReviewer (kConfig : Option RestConfig) (kClient : Option KubeClient) :
    Except String AccessReviewer :=
  if kClient = none ∧ kConfig = none then
    Except.error "one of either kubeConfig or kubeClient must be a non-nil value"
  else if kClient ≠ none ∧ kConfig ≠ none then
    Except.error "only one of either kubeConfig or kubeClient must be a non-nil value"
  else
    match kConfig with
    | some configCopy => Except.ok { kubeConfig := some configCopy, kubeClient := none }
    | none => Except.ok { kubeConfig := none, kubeClient := kClient }

/-- The status of a SelfSubjectRulesReview response: the rule list and the
(possibly empty) evaluation-error string. -/
structure SelfSubjectRulesReviewStatus where
  ResourceRules : List ResourceRule
  EvaluationError : String
  deriving DecidableEq, Repr

/-- makeSubjectRulesReviewForUser (rbac.go:293-335). The network call
`kclient.AuthorizationV1().SelfSubjectRulesReviews().Create` is abstracted
as `createReview`, a function from the namespace set on the review to the
call's outcome. An empty namespace is replaced by the invalid sentinel
namespace; a failed call is returned as the error; on success the status's
rule list is returned, the evaluation error being only logged. -/
def makeSubjectRulesReviewForUser
    (createReview : String → Except String SelfSubjectRulesReviewStatus)
    (ns0 : String) : Except String (List ResourceRule) :=
  let ns := if ns0 = "" then "$ Invalid $" else ns0
  match createReview ns with
  | Except.error err => Except.error err
  | Except.ok response => Except.ok response.ResourceRules

/-! ### Basic lemmas about the Go-map model -/

theorem lookupMap_insertMap_self (m : AccessMap) (k : String) (v : List String) :
    lookupMap (insertMap m k v) k = v := by
  induction m with
  | nil => simp [insertMap, lookupMap]
  | cons p rest ih =>
    by_cases h : p.1 = k
    · simp [insertMap, lookupMap, h]
    · simp [insertMap, lookupMap, h, ih]

theorem lookupMap_insertMap_ne (m : AccessMap) (k k' : String) (v : List String)
    (hne : k' ≠ k) : lookupMap (insertMap m k v) k' = lookupMap m k' := by
  induction m with
  | nil =>
    simp only [insertMap, lookupMap]
    rw [if_neg (show ¬ k = k' from fun he => hne he.symm)]
  | cons p rest ih =>
    by_cases h : p.1 = k
    · simp only [insertMap, if_pos h, lookupMap]
      have hpk : ¬ p.1 = k' := fun h2 => hne (h2 ▸ h)
      rw [if_neg hpk, if_neg hpk]
    · simp only [insertMap, if_neg h, lookupMap]
      by_cases h2 : p.1 = k'
      · rw [if_pos h2, if_pos h2]
      · rw [if_neg h2, if_neg h2, ih]

theorem lookupMap_eq_nil_of_not_containsKey (k : String) :
    ∀ (m : AccessMap), ¬ containsKeyMap m k → lookupMap m k = [] := by
  intro m
  induction m with
  | nil => intro _; rfl
  | cons p rest ih =>
    intro h
    simp only [containsKeyMap, mapKeys, List.map_cons, List.mem_cons, not_or] at h
    simp only [lookupMap]
    rw [if_neg (show ¬ p.1 = k from fun he => h.1 he.symm)]
    exact ih h.2

theorem mapKeys_insertMap_mem (k : String) (v : List String) :
    ∀ (m : AccessMap), containsKeyMap m k → mapKeys (insertMap m k v) = mapKeys m := by
  intro m
  induction m with
  | nil => intro h; exact absurd h (by simp [containsKeyMap, mapKeys])
  | cons p rest ih =>
    intro h
    by_cases hp : p.1 = k
    · simp [insertMap, hp, mapKeys]
    · have hrest : containsKeyMap rest k := by
        simp only [containsKeyMap, mapKeys, List.map_cons, List.mem_cons] at h
        rcases h with h | h
        · exact absurd h.symm hp
        · exact h
      simp only [insertMap, if_neg hp, mapKeys, List.map_cons]
      rw [show List.map Prod.fst (insertMap rest k v) = mapKeys (insertMap rest k v) from rfl,
        ih hrest]

theorem mapKeys_insertMap_not_mem (k : String) (v : List String) :
    ∀ (m : AccessMap), ¬ containsKeyMap m k →
      mapKeys (insertMap m k v) = mapKeys m ++ [k] := by
  intro m
  induction m with
  | nil => intro _; rfl
  | cons p rest ih =>
    intro h
    simp only [containsKeyMap, mapKeys, List.map_cons, List.mem_cons, not_or] at h
    simp only [insertMap, if_neg (show ¬ p.1 = k from fun he => h.1 he.symm),
      mapKeys, List.map_cons]
    rw [show List.map Prod.fst (insertMap rest k v) = mapKeys (insertMap rest k v) from rfl,
      ih h.2]
    rfl

theorem containsKeyMap_insertMap (m : AccessMap) (k k' : String) (v : List String) :
    containsKeyMap (insertMap m k v) k' ↔ k' = k ∨ containsKeyMap m k' := by
  by_cases hc : containsKeyMap m k
  · rw [containsKeyMap, mapKeys_insertMap_mem k v m hc]
    constructor
    · exact fun h => Or.inr h
    · rintro (rfl | h)
      · exact hc
      · exact h
  · rw [containsKeyMap, mapKeys_insertMap_not_mem k v m hc]
    simp only [List.mem_append, List.mem_singleton]
    tauto

/-- Keys of a canonical map stay duplicate-free under insertion. -/
theorem mapKeysNodup_insertMap (m : AccessMap) (k : String) (v : List String)
    (h : (mapKeys m).Nodup) : (mapKeys (insertMap m k v)).Nodup := by
  by_cases hc : containsKeyMap m k
  · rw [mapKeys_insertMap_mem k v m hc]
    exact h
  · rw [mapKeys_insertMap_not_mem k v m hc]
    simp only [List.nodup_append, List.nodup_cons, List.not_mem_nil, not_false_iff,
      List.nodup_nil, and_true, true_and]
    refine ⟨h, ?_⟩
    intro a ha hmem
    simp only [List.mem_singleton] at hmem
    exact hc (hmem ▸ ha)

/-! ### Lemmas about addUniqueItems -/

theorem mem_addUniqueItems (itemlist itemsToAdd : List String) (x : String) :
    x ∈ addUniqueItems itemlist itemsToAdd ↔ x ∈ itemlist ∨ x ∈ itemsToAdd := by
  unfold addUniqueItems
  induction itemsToAdd generalizing itemlist with
  | nil => simp
  | cons i rest ih =>
    simp only [List.foldl_cons, List.mem_cons]
    rw [ih]
    by_cases hi : i ∈ itemlist
    · by_cases hx : x = i
      · subst hx
        simp [hi]
      · simp [hi, hx]
    · simp only [if_neg hi, List.mem_append, List.mem_singleton]
      tauto

theorem nodup_addUniqueItems (itemlist itemsToAdd : List String)
    (h : itemlist.Nodup) : (addUniqueItems itemlist itemsToAdd).Nodup := by
  unfold addUniqueItems
  induction itemsToAdd generalizing itemlist with
  | nil => simpa using h
  | cons i rest ih =>
    simp only [List.foldl_cons]
    by_cases hi : i ∈ itemlist
    · simpa [hi] using ih itemlist h
    · rw [if_neg hi]
      refine ih (itemlist ++ [i]) ?_
      simp only [List.nodup_append, List.nodup_cons, List.not_mem_nil, not_false_iff,
        List.nodup_nil, and_true, true_and]
      refine ⟨h, ?_⟩
      intro a ha he
      simp only [List.mem_singleton] at he
      exact hi (he ▸ ha)

theorem addUniqueItems_eq_of_subset (itemlist itemsToAdd : List String)
    (h : ∀ i ∈ itemsToAdd, i ∈ itemlist) : addUniqueItems itemlist itemsToAdd = itemlist := by
  unfold addUniqueItems
  induction itemsToAdd with
  | nil => rfl
  | cons i rest ih =>
    have hi : i ∈ itemlist := h i (by simp)
    simp only [List.foldl_cons, if_pos hi]
    exact ih (fun j hj => h j (by simp [hj]))

theorem addUniqueItems_idem (itemlist itemsToAdd : List String) :
    addUniqueItems (addUniqueItems itemlist itemsToAdd) itemsToAdd =
      addUniqueItems itemlist itemsToAdd :=
  addUniqueItems_eq_of_subset _ _
    (fun i hi => (mem_addUniqueItems _ _ i).mpr (Or.inr hi))

/-! ### Membership and keys through the merging folds of GetResourceAccess -/

theorem mem_lookup_insert_merge (acc : AccessMap) (n0 n : String) (verbs : List String)
    (v : String) :
    v ∈ lookupMap (insertMap acc n0 (addUniqueItems (lookupMap acc n0) verbs)) n ↔
      v ∈ lookupMap acc n ∨ (n = n0 ∧ v ∈ verbs) := by
  by_cases hn : n = n0
  · subst hn
    rw [lookupMap_insertMap_self, mem_addUniqueItems]
    simp
  · rw [lookupMap_insertMap_ne _ _ _ _ hn]
    simp [hn]

theorem mem_lookup_foldIns (verbs resourcenames : List String) (n v : String) :
    ∀ (ns : List String) (acc : AccessMap),
    v ∈ lookupMap (ns.foldl (fun acc2 rrn =>
        if resourcenames.length = 0 ∨ rrn ∈ resourcenames then
          insertMap acc2 rrn (addUniqueItems (lookupMap acc2 rrn) verbs)
        else acc2) acc) n ↔
      v ∈ lookupMap acc n ∨
        (n ∈ ns ∧ (resourcenames.length = 0 ∨ n ∈ resourcenames) ∧ v ∈ verbs) := by
  intro ns
  induction ns with
  | nil => intro acc; simp
  | cons rrn rest ih =>
    intro acc
    simp only [List.foldl_cons]
    rw [ih]
    by_cases hc : resourcenames.length = 0 ∨ rrn ∈ resourcenames
    · rw [if_pos hc, mem_lookup_insert_merge]
      constructor
      · rintro ((h | ⟨rfl, hv⟩) | ⟨hmem, hcn, hv⟩)
        · exact Or.inl h
        · exact Or.inr ⟨List.mem_cons_self _ _, hc, hv⟩
        · exact Or.inr ⟨List.mem_cons_of_mem _ hmem, hcn, hv⟩
      · rintro (h | ⟨hmem, hcn, hv⟩)
        · exact Or.inl (Or.inl h)
        · rcases List.mem_cons.mp hmem with rfl | hmem2
          · exact Or.inl (Or.inr ⟨rfl, hv⟩)
          · exact Or.inr ⟨hmem2, hcn, hv⟩
    · rw [if_neg hc]
      constructor
      · rintro (h | ⟨hmem, hcn, hv⟩)
        · exact Or.inl h
        · exact Or.inr ⟨List.mem_cons_of_mem _ hmem, hcn, hv⟩
      · rintro (h | ⟨hmem, hcn, hv⟩)
        · exact Or.inl h
        · rcases List.mem_cons.mp hmem with rfl | hmem2
          · exact absurd hcn hc
          · exact Or.inr ⟨hmem2, hcn, hv⟩

theorem mem_lookup_foldAll (verbs : List String) (n v : String) :
    ∀ (ns : List String) (acc : AccessMap),
    v ∈ lookupMap (ns.foldl (fun acc2 rname =>
        insertMap acc2 rname (addUniqueItems (lookupMap acc2 rname) verbs)) acc) n ↔
      v ∈ lookupMap acc n ∨ (n ∈ ns ∧ v ∈ verbs) := by
  intro ns
  induction ns with
  | nil => intro acc; simp
  | cons rname rest ih =>
    intro acc
    simp only [List.foldl_cons]
    rw [ih, mem_lookup_insert_merge]
    constructor
    · rintro ((h | ⟨rfl, hv⟩) | ⟨hmem, hv⟩)
      · exact Or.inl h
      · exact Or.inr ⟨List.mem_cons_self _ _, hv⟩
      · exact Or.inr ⟨List.mem_cons_of_mem _ hmem, hv⟩
    · rintro (h | ⟨hmem, hv⟩)
      · exact Or.inl (Or.inl h)
      · rcases List.mem_cons.mp hmem with rfl | hmem2
        · exact Or.inl (Or.inr ⟨rfl, hv⟩)
        · exact Or.inr ⟨hmem2, hv⟩

theorem keys_foldIns (verbs resourcenames : List String) (n : String) :
    ∀ (ns : List String) (acc : AccessMap),
    containsKeyMap (ns.foldl (fun acc2 rrn =>
        if resourcenames.length = 0 ∨ rrn ∈ resourcenames then
          insertMap acc2 rrn (addUniqueItems (lookupMap acc2 rrn) verbs)
        else acc2) acc) n ↔
      containsKeyMap acc n ∨ (n ∈ ns ∧ (resourcenames.length = 0 ∨ n ∈ resourcenames)) := by
  intro ns
  induction ns with
  | nil => intro acc; simp
  | cons rrn rest ih =>
    intro acc
    simp only [List.foldl_cons]
    rw [ih]
    by_cases hc : resourcenames.length = 0 ∨ rrn ∈ resourcenames
    · rw [if_pos hc, containsKeyMap_insertMap]
      constructor
      · rintro ((rfl | h) | ⟨hmem, hcn⟩)
        · exact Or.inr ⟨List.mem_cons_self _ _, hc⟩
        · exact Or.inl h
        · exact Or.inr ⟨List.mem_cons_of_mem _ hmem, hcn⟩
      · rintro (h | ⟨hmem, hcn⟩)
        · exact Or.inl (Or.inr h)
        · rcases List.mem_cons.mp hmem with rfl | hmem2
          · exact Or.inl (Or.inl rfl)
          · exact Or.inr ⟨hmem2, hcn⟩
    · rw [if_neg hc]
      constructor
      · rintro (h | ⟨hmem, hcn⟩)
        · exact Or.inl h
        · exact Or.inr ⟨List.mem_cons_of_mem _ hmem, hcn⟩
      · rintro (h | ⟨hmem, hcn⟩)
        · exact Or.inl h
        · rcases List.mem_cons.mp hmem with rfl | hmem2
          · exact absurd hcn hc
          · exact Or.inr ⟨hmem2, hcn⟩

theorem keys_foldAll (verbs : List String) (n : String) :
    ∀ (ns : List String) (acc : AccessMap),
    containsKeyMap (ns.foldl (fun acc2 rname =>
        insertMap acc2 rname (addUniqueItems (lookupMap acc2 rname) verbs)) acc) n ↔
      containsKeyMap acc n ∨ n ∈ ns := by
  intro ns
  induction ns with
  | nil => intro acc; simp
  | cons rname rest ih =>
    intro acc
    simp only [List.foldl_cons]
    rw [ih, containsKeyMap_insertMap]
    constructor
    · rintro ((rfl | h) | hmem)
      · exact Or.inr (List.mem_cons_self _ _)
      · exact Or.inl h
      · exact Or.inr (List.mem_cons_of_mem _ hmem)
    · rintro (h | hmem)
      · exact Or.inl (Or.inr h)
      · rcases List.mem_cons.mp hmem with rfl | hmem2
        · exact Or.inl (Or.inl rfl)
        · exact Or.inr hmem2

/-! ### The explicit-empty-entry fill loop (rbac.go:254-260) -/

theorem mem_lookup_fillFold (n v : String) :
    ∀ (ns : List String) (acc : AccessMap),
    v ∈ lookupMap (ns.foldl (fun acc2 rname =>
        if containsKeyMap acc2 rname then acc2 else insertMap acc2 rname []) acc) n ↔
      v ∈ lookupMap acc n := by
  intro ns
  induction ns with
  | nil => intro acc; simp
  | cons rname rest ih =>
    intro acc
    simp only [List.foldl_cons]
    rw [ih]
    by_cases hc : containsKeyMap acc rname
    · rw [if_pos hc]
    · rw [if_neg hc]
      by_cases hn : n = rname
      · subst hn
        rw [lookupMap_insertMap_self, lookupMap_eq_nil_of_not_containsKey n acc hc]
      · rw [lookupMap_insertMap_ne _ _ _ _ hn]

theorem keys_fillFold (n : String) :
    ∀ (ns : List String) (acc : AccessMap),
    containsKeyMap (ns.foldl (fun acc2 rname =>
        if containsKeyMap acc2 rname then acc2 else insertMap acc2 rname []) acc) n ↔
      containsKeyMap acc n ∨ n ∈ ns := by
  intro ns
  induction ns with
  | nil => intro acc; simp
  | cons rname rest ih =>
    intro acc
    simp only [List.foldl_cons]
    rw [ih]
    by_cases hc : containsKeyMap acc rname
    · rw [if_pos hc]
      constructor
      · rintro (h | hmem)
        · exact Or.inl h
        · exact Or.inr (List.mem_cons_of_mem _ hmem)
      · rintro (h | hmem)
        · exact Or.inl h
        · rcases List.mem_cons.mp hmem with rfl | hmem2
          · exact Or.inl hc
          · exact Or.inr hmem2
    · rw [if_neg hc, containsKeyMap_insertMap]
      constructor
      · rintro ((rfl | h) | hmem)
        · exact Or.inr (List.mem_cons_self _ _)
        · exact Or.inl h
        · exact Or.inr (List.mem_cons_of_mem _ hmem)
      · rintro (h | hmem)
        · exact Or.inl (Or.inr h)
        · rcases List.mem_cons.mp hmem with rfl | hmem2
          · exact Or.inl (Or.inl rfl)
          · exact Or.inr hmem2

/-! ### Per-rule characterization of GetResourceAccess -/

theorem mem_applyResourceRule (acc : AccessMap) (rule : ResourceRule) (gr : GroupResource)
    (resourcenames : List String) (n v : String) :
    v ∈ lookupMap (applyResourceRule acc rule gr resourcenames) n ↔
      v ∈ lookupMap acc n ∨
        (ruleMatchesGroupResource rule gr ∧ v ∈ rule.Verbs ∧
          ruleNameCond rule resourcenames n) := by
  unfold applyResourceRule
  by_cases hm : ruleMatchesGroupResource rule gr
  · rw [if_neg (not_not_intro hm)]
    by_cases h1 : rule.ResourceNames.length ≠ 0
    · rw [if_pos h1, mem_lookup_foldIns]
      simp only [ruleNameCond, if_pos h1]
      tauto
    · rw [if_neg h1]
      by_cases h2 : resourcenames.length ≠ 0
      · rw [if_pos h2, mem_lookup_foldAll]
        simp only [ruleNameCond, if_neg h1, if_pos h2]
        tauto
      · rw [if_neg h2, mem_lookup_insert_merge]
        simp only [ruleNameCond, if_neg h1, if_neg h2]
        tauto
  · rw [if_pos hm]
    tauto

theorem keys_applyResourceRule (acc : AccessMap) (rule : ResourceRule) (gr : GroupResource)
    (resourcenames : List String) (n : String) :
    containsKeyMap (applyResourceRule acc rule gr resourcenames) n ↔
      containsKeyMap acc n ∨
        (ruleMatchesGroupResource rule gr ∧ ruleNameCond rule resourcenames n) := by
  unfold applyResourceRule
  by_cases hm : ruleMatchesGroupResource rule gr
  · rw [if_neg (not_not_intro hm)]
    by_cases h1 : rule.ResourceNames.length ≠ 0
    · rw [if_pos h1, keys_foldIns]
      simp only [ruleNameCond, if_pos h1]
      tauto
    · rw [if_neg h1]
      by_cases h2 : resourcenames.length ≠ 0
      · rw [if_pos h2, keys_foldAll]
        simp only [ruleNameCond, if_neg h1, if_pos h2]
        tauto
      · rw [if_neg h2, containsKeyMap_insertMap]
        simp only [ruleNameCond, if_neg h1, if_neg h2]
        tauto
  · rw [if_pos hm]
    tauto

theorem mem_rulesFold (gr : GroupResource) (resourcenames : List String) (n v : String) :
    ∀ (rules : List ResourceRule) (acc : AccessMap),
    v ∈ lookupMap (rules.foldl
        (fun acc2 rule => applyResourceRule acc2 rule gr resourcenames) acc) n ↔
      v ∈ lookupMap acc n ∨
        ∃ rule ∈ rules, ruleMatchesGroupResource rule gr ∧ v ∈ rule.Verbs ∧
          ruleNameCond rule resourcenames n := by
  intro rules
  induction rules with
  | nil => intro acc; simp
  | cons r rest ih =>
    intro acc
    simp only [List.foldl_cons]
    rw [ih, mem_applyResourceRule]
    constructor
    · rintro ((h | hr) | ⟨rule, hmem, hrule⟩)
      · exact Or.inl h
      · exact Or.inr ⟨r, List.mem_cons_self _ _, hr⟩
      · exact Or.inr ⟨rule, List.mem_cons_of_mem _ hmem, hrule⟩
    · rintro (h | ⟨rule, hmem, hrule⟩)
      · exact Or.inl (Or.inl h)
      · rcases List.mem_cons.mp hmem with rfl | hmem2
        · exact Or.inl (Or.inr hrule)
        · exact Or.inr ⟨rule, hmem2, hrule⟩

theorem keys_rulesFold (gr : GroupResource) (resourcenames : List String) (n : String) :
    ∀ (rules : List ResourceRule) (acc : AccessMap),
    containsKeyMap (rules.foldl
        (fun acc2 rule => applyResourceRule acc2 rule gr resourcenames) acc) n ↔
      containsKeyMap acc n ∨
        ∃ rule ∈ rules, ruleMatchesGroupResource rule gr ∧
          ruleNameCond rule resourcenames n := by
  intro rules
  induction rules with
  | nil => intro acc; simp
  | cons r rest ih =>
    intro acc
    simp only [List.foldl_cons]
    rw [ih, keys_applyResourceRule]
    constructor
    · rintro ((h | hr) | ⟨rule, hmem, hrule⟩)
      · exact Or.inl h
      · exact Or.inr ⟨r, List.mem_cons_self _ _, hr⟩
      · exact Or.inr ⟨rule, List.mem_cons_of_mem _ hmem, hrule⟩
    · rintro (h | ⟨rule, hmem, hrule⟩)
      · exact Or.inl (Or.inl h)
      · rcases List.mem_cons.mp hmem with rfl | hmem2
        · exact Or.inl (Or.inr hrule)
        · exact Or.inr ⟨rule, hmem2, hrule⟩

/-- Membership characterization of the GetResourceAccess result: a verb is
in the entry of name n exactly when some rule matching the target
contributes it to n. -/
theorem mem_GetResourceAccess (resourceRules : List ResourceRule) (gr : GroupResource)
    (resourcenames : List String) (n v : String) :
    v ∈ lookupMap (GetResourceAccess resourceRules gr resourcenames) n ↔
      ∃ rule ∈ resourceRules, ruleMatchesGroupResource rule gr ∧ v ∈ rule.Verbs ∧
        ruleNameCond rule resourcenames n := by
  simp only [GetResourceAccess]
  by_cases h : resourcenames.length ≠ 0
  · rw [if_pos h, mem_lookup_fillFold, mem_rulesFold]
    simp [lookupMap]
  · rw [if_neg h, mem_rulesFold]
    simp [lookupMap]

/-- Key characterization of the GetResourceAccess result: n is a key exactly
when some matching rule created its entry, or n was explicitly requested. -/
theorem keys_GetResourceAccess (resourceRules : List ResourceRule) (gr : GroupResource)
    (resourcenames : List String) (n : String) :
    containsKeyMap (GetResourceAccess resourceRules gr resourcenames) n ↔
      (∃ rule ∈ resourceRules, ruleMatchesGroupResource rule gr ∧
        ruleNameCond rule resourcenames n) ∨ n ∈ resourcenames := by
  simp only [GetResourceAccess]
  by_cases h : resourcenames.length ≠ 0
  · rw [if_pos h, keys_fillFold, keys_rulesFold]
    simp only [containsKeyMap, mapKeys, List.map_nil, List.not_mem_nil, false_or]
  · rw [if_neg h, keys_rulesFold]
    have hnil : resourcenames = [] := by
      simpa using h
    subst hnil
    simp only [containsKeyMap, mapKeys, List.map_nil, List.not_mem_nil, false_or, or_false]

/-! ### Keys of the GetResourceAccess result are duplicate-free -/

theorem keysNodup_foldIns (verbs resourcenames : List String) :
    ∀ (ns : List String) (acc : AccessMap), (mapKeys acc).Nodup →
    (mapKeys (ns.foldl (fun acc2 rrn =>
        if resourcenames.length = 0 ∨ rrn ∈ resourcenames then
          insertMap acc2 rrn (addUniqueItems (lookupMap acc2 rrn) verbs)
        else acc2) acc)).Nodup := by
  intro ns
  induction ns with
  | nil => intro acc h; simpa using h
  | cons rrn rest ih =>
    intro acc h
    simp only [List.foldl_cons]
    refine ih _ ?_
    by_cases hc : resourcenames.length = 0 ∨ rrn ∈ resourcenames
    · rw [if_pos hc]
      exact mapKeysNodup_insertMap _ _ _ h
    · rw [if_neg hc]
      exact h

theorem keysNodup_foldAll (verbs : List String) :
    ∀ (ns : List String) (acc : AccessMap), (mapKeys acc).Nodup →
    (mapKeys (ns.foldl (fun acc2 rname =>
        insertMap acc2 rname (addUniqueItems (lookupMap acc2 rname) verbs)) acc)).Nodup := by
  intro ns
  induction ns with
  | nil => intro acc h; simpa using h
  | cons rname rest ih =>
    intro acc h
    simp only [List.foldl_cons]
    exact ih _ (mapKeysNodup_insertMap _ _ _ h)

theorem keysNodup_fillFold :
    ∀ (ns : List String) (acc : AccessMap), (mapKeys acc).Nodup →
    (mapKeys (ns.foldl (fun acc2 rname =>
        if containsKeyMap acc2 rname then acc2 else insertMap acc2 rname []) acc)).Nodup := by
  intro ns
  induction ns with
  | nil => intro acc h; simpa using h
  | cons rname rest ih =>
    intro acc h
    simp only [List.foldl_cons]
    refine ih _ ?_
    by_cases hc : containsKeyMap acc rname
    · rw [if_pos hc]
      exact h
    · rw [if_neg hc]
      exact mapKeysNodup_insertMap _ _ _ h

theorem keysNodup_applyResourceRule (acc : AccessMap) (rule : ResourceRule)
    (gr : GroupResource) (resourcenames : List String) (h : (mapKeys acc).Nodup) :
    (mapKeys (applyResourceRule acc rule gr resourcenames)).Nodup := by
  unfold applyResourceRule
  by_cases hm : ruleMatchesGroupResource rule gr
  · rw [if_neg (not_not_intro hm)]
    by_cases h1 : rule.ResourceNames.length ≠ 0
    · rw [if_pos h1]
      exact keysNodup_foldIns _ _ _ _ h
    · rw [if_neg h1]
      by_cases h2 : resourcenames.length ≠ 0
      · rw [if_pos h2]
        exact keysNodup_foldAll _ _ _ h
      · rw [if_neg h2]
        exact mapKeysNodup_insertMap _ _ _ h
  · rw [if_pos hm]
    exact h

theorem keysNodup_GetResourceAccess (resourceRules : List ResourceRule) (gr : GroupResource)
    (resourcenames : List String) :
    (mapKeys (GetResourceAccess resourceRules gr resourcenames)).Nodup := by
  have hloop : ∀ (rules : List ResourceRule) (acc : AccessMap), (mapKeys acc).Nodup →
      (mapKeys (rules.foldl
        (fun acc2 rule => applyResourceRule acc2 rule gr resourcenames) acc)).Nodup := by
    intro rules
    induction rules with
    | nil => intro acc h; simpa using h
    | cons r rest ih =>
      intro acc h
      simp only [List.foldl_cons]
      exact ih _ (keysNodup_applyResourceRule _ _ _ _ h)
  simp only [GetResourceAccess]
  by_cases h : resourcenames.length ≠ 0
  · rw [if_pos h]
    exact keysNodup_fillFold _ _ (hloop _ _ (by simp [mapKeys]))
  · rw [if_neg h]
    exact hloop _ _ (by simp [mapKeys])

/-! ### The metrics namespace decoding (rbac.go:158-173) -/

theorem mem_addKeyOnce (m : List String) (k x : String) :
    x ∈ addKeyOnce m k ↔ x ∈ m ∨ x = k := by
  unfold addKeyOnce
  by_cases hk : k ∈ m
  · rw [if_pos hk]
    constructor
    · exact fun h => Or.inl h
    · rintro (h | rfl)
      · exact h
      · exact hk
  · rw [if_neg hk]
    simp [List.mem_append]

theorem nodup_addKeyOnce (m : List String) (k : String) (h : m.Nodup) :
    (addKeyOnce m k).Nodup := by
  unfold addKeyOnce
  by_cases hk : k ∈ m
  · rw [if_pos hk]
    exact h
  · rw [if_neg hk]
    simp only [List.nodup_append, List.nodup_cons, List.not_mem_nil, not_false_iff,
      List.nodup_nil, and_true, true_and]
    refine ⟨h, ?_⟩
    intro a ha he
    simp only [List.mem_singleton] at he
    exact hk (he ▸ ha)

theorem mem_metricsFoldAux (ns : String) : ∀ (acls m : List String),
    ns ∈ acls.foldl (fun metricsAccessMap acl =>
      if hasPre acl MetricsACLConfig.verb then
        addKeyOnce metricsAccessMap (trimLeading acl MetricsACLConfig.verb)
      else if acl = "*" then
        addKeyOnce metricsAccessMap "*"
      else metricsAccessMap) m ↔
    ns ∈ m ∨
      (∃ acl ∈ acls, hasPre acl MetricsACLConfig.verb = true ∧
        ns = trimLeading acl MetricsACLConfig.verb) ∨
      (∃ acl ∈ acls, hasPre acl MetricsACLConfig.verb = false ∧ acl = "*" ∧ ns = "*") := by
  intro acls
  induction acls with
  | nil => intro m; simp
  | cons a rest ih =>
    intro m
    simp only [List.foldl_cons]
    rw [ih]
    by_cases hp : hasPre a MetricsACLConfig.verb = true
    · rw [if_pos hp, mem_addKeyOnce]
      constructor
      · rintro ((h | rfl) | h | h)
        · exact Or.inl h
        · exact Or.inr (Or.inl ⟨a, List.mem_cons_self _ _, hp, rfl⟩)
        · rcases h with ⟨acl, hmem, hpre, hns⟩
          exact Or.inr (Or.inl ⟨acl, List.mem_cons_of_mem _ hmem, hpre, hns⟩)
        · rcases h with ⟨acl, hmem, hpre, hstar, hns⟩
          exact Or.inr (Or.inr ⟨acl, List.mem_cons_of_mem _ hmem, hpre, hstar, hns⟩)
      · rintro (h | ⟨acl, hmem, hpre, hns⟩ | ⟨acl, hmem, hpre, hstar, hns⟩)
        · exact Or.inl (Or.inl h)
        · rcases List.mem_cons.mp hmem with rfl | hmem2
          · exact Or.inl (Or.inr hns)
          · exact Or.inr (Or.inl ⟨acl, hmem2, hpre, hns⟩)
        · rcases List.mem_cons.mp hmem with rfl | hmem2
          · rw [hp] at hpre
            exact absurd hpre (by simp)
          · exact Or.inr (Or.inr ⟨acl, hmem2, hpre, hstar, hns⟩)
    · have hp2 : hasPre a MetricsACLConfig.verb = false := by
        cases h : hasPre a MetricsACLConfig.verb
        · rfl
        · exact absurd h hp
      rw [if_neg (by simp [hp2])]
      by_cases ha : a = "*"
      · rw [if_pos ha, mem_addKeyOnce]
        constructor
        · rintro ((h | rfl) | h | h)
          · exact Or.inl h
          · exact Or.inr (Or.inr ⟨a, List.mem_cons_self _ _, hp2, ha, rfl⟩)
          · rcases h with ⟨acl, hmem, hpre, hns⟩
            exact Or.inr (Or.inl ⟨acl, List.mem_cons_of_mem _ hmem, hpre, hns⟩)
          · rcases h with ⟨acl, hmem, hpre, hstar, hns⟩
            exact Or.inr (Or.inr ⟨acl, List.mem_cons_of_mem _ hmem, hpre, hstar, hns⟩)
        · rintro (h | ⟨acl, hmem, hpre, hns⟩ | ⟨acl, hmem, hpre, hstar, hns⟩)
          · exact Or.inl (Or.inl h)
          · rcases List.mem_cons.mp hmem with rfl | hmem2
            · rw [hpre] at hp2
              exact absurd hp2 (by simp)
            · exact Or.inr (Or.inl ⟨acl, hmem2, hpre, hns⟩)
          · rcases List.mem_cons.mp hmem with rfl | hmem2
            · exact Or.inl (Or.inr hns)
            · exact Or.inr (Or.inr ⟨acl, hmem2, hpre, hstar, hns⟩)
      · rw [if_neg ha]
        constructor
        · rintro (h | h | h)
          · exact Or.inl h
          · rcases h with ⟨acl, hmem, hpre, hns⟩
            exact Or.inr (Or.inl ⟨acl, List.mem_cons_of_mem _ hmem, hpre, hns⟩)
          · rcases h with ⟨acl, hmem, hpre, hstar, hns⟩
            exact Or.inr (Or.inr ⟨acl, List.mem_cons_of_mem _ hmem, hpre, hstar, hns⟩)
        · rintro (h | ⟨acl, hmem, hpre, hns⟩ | ⟨acl, hmem, hpre, hstar, hns⟩)
          · exact Or.inl h
          · rcases List.mem_cons.mp hmem with rfl | hmem2
            · rw [hpre] at hp
              exact absurd rfl hp
            · exact Or.inr (Or.inl ⟨acl, hmem2, hpre, hns⟩)
          · rcases List.mem_cons.mp hmem with rfl | hmem2
            · exact absurd hstar ha
            · exact Or.inr (Or.inr ⟨acl, hmem2, hpre, hstar, hns⟩)

/-- The wildcard verb is not itself of the "metrics/..." form. -/
theorem hasPre_star_false : hasPre "*" MetricsACLConfig.verb = false := by decide

theorem mem_metricsNamespaceKeys (clusteracls : List String) (ns : String) :
    ns ∈ metricsNamespaceKeys clusteracls ↔
      (∃ acl ∈ clusteracls, hasPre acl MetricsACLConfig.verb = true ∧
        ns = trimLeading acl MetricsACLConfig.verb) ∨
      ("*" ∈ clusteracls ∧ ns = "*") := by
  unfold metricsNamespaceKeys
  rw [mem_metricsFoldAux]
  simp only [List.not_mem_nil, false_or]
  constructor
  · rintro (h | ⟨acl, hmem, _, rfl, hns⟩)
    · exact Or.inl h
    · exact Or.inr ⟨hmem, hns⟩
  · rintro (h | ⟨hmem, hns⟩)
    · exact Or.inl h
    · exact Or.inr ⟨"*", hmem, hasPre_star_false, rfl, hns⟩

theorem nodup_metricsNamespaceKeys (clusteracls : List String) :
    (metricsNamespaceKeys clusteracls).Nodup := by
  unfold metricsNamespaceKeys
  have hgen : ∀ (acls m : List String), m.Nodup →
      (acls.foldl (fun metricsAccessMap acl =>
        if hasPre acl MetricsACLConfig.verb then
          addKeyOnce metricsAccessMap (trimLeading acl MetricsACLConfig.verb)
        else if acl = "*" then
          addKeyOnce metricsAccessMap "*"
        else metricsAccessMap) m).Nodup := by
    intro acls
    induction acls with
    | nil => intro m h; simpa using h
    | cons a rest ih =>
      intro m h
      simp only [List.foldl_cons]
      refine ih _ ?_
      by_cases hp : hasPre a MetricsACLConfig.verb = true
      · rw [if_pos hp]
        exact nodup_addKeyOnce _ _ h
      · have hp2 : hasPre a MetricsACLConfig.verb = false := by
          cases hh : hasPre a MetricsACLConfig.verb
          · rfl
          · exact absurd hh hp
        rw [if_neg (by simp [hp2])]
        by_cases ha : a = "*"
        · rw [if_pos ha]
          exact nodup_addKeyOnce _ _ h
        · rw [if_neg ha]
          exact h
  exact hgen _ _ (by simp)

/-! ### The per-cluster decode loop of GetMetricsAccess (rbac.go:154-181) -/

theorem lookup_eq_of_mem_keysNodup (c : String) (vs : List String) :
    ∀ (m : AccessMap), (mapKeys m).Nodup → (c, vs) ∈ m → lookupMap m c = vs := by
  intro m
  induction m with
  | nil => intro _ h; exact absurd h (List.not_mem_nil _)
  | cons p rest ih =>
    intro hnd hmem
    simp only [mapKeys, List.map_cons, List.nodup_cons] at hnd
    rcases List.mem_cons.mp hmem with rfl | hmem2
    · simp [lookupMap]
    · have hne : ¬ p.1 = c := by
        intro he
        exact hnd.1 (he ▸ List.mem_map_of_mem Prod.fst hmem2)
      simp only [lookupMap, if_neg hne]
      exact ih hnd.2 hmem2

theorem mem_entry_insertMap (k : String) (v : List String) (q : String × List String) :
    ∀ (m : AccessMap), q ∈ insertMap m k v → q ∈ m ∨ q.2 = v := by
  intro m
  induction m with
  | nil =>
    intro h
    simp only [insertMap, List.mem_singleton] at h
    exact Or.inr (by rw [h])
  | cons p rest ih =>
    intro h
    by_cases hp : p.1 = k
    · rw [insertMap, if_pos hp] at h
      rcases List.mem_cons.mp h with rfl | h2
      · exact Or.inr rfl
      · exact Or.inl (List.mem_cons_of_mem _ h2)
    · rw [insertMap, if_neg hp] at h
      rcases List.mem_cons.mp h with rfl | h2
      · exact Or.inl (List.mem_cons_self _ _)
      · rcases ih h2 with h3 | h3
        · exact Or.inl (List.mem_cons_of_mem _ h3)
        · exact Or.inr h3

theorem keys_decodeFold (clusters : List String) (c : String) :
    ∀ (m : AccessMap) (acc : AccessMap),
    containsKeyMap (m.foldl (fun metricsAccessResults entry =>
        let nsWithMetricsAccess := metricsNamespaceKeys entry.2
        if nsWithMetricsAccess.length > 0 ∨ entry.1 ∈ clusters then
          insertMap metricsAccessResults entry.1 nsWithMetricsAccess
        else metricsAccessResults) acc) c ↔
      containsKeyMap acc c ∨
        ∃ p ∈ m, p.1 = c ∧ ((metricsNamespaceKeys p.2).length > 0 ∨ p.1 ∈ clusters) := by
  intro m
  induction m with
  | nil => intro acc; simp
  | cons p rest ih =>
    intro acc
    simp only [List.foldl_cons]
    rw [ih]
    by_cases hc : (metricsNamespaceKeys p.2).length > 0 ∨ p.1 ∈ clusters
    · rw [if_pos hc, containsKeyMap_insertMap]
      constructor
      · rintro ((rfl | h) | ⟨q, hmem, hq, hcond⟩)
        · exact Or.inr ⟨p, List.mem_cons_self _ _, rfl, hc⟩
        · exact Or.inl h
        · exact Or.inr ⟨q, List.mem_cons_of_mem _ hmem, hq, hcond⟩
      · rintro (h | ⟨q, hmem, hq, hcond⟩)
        · exact Or.inl (Or.inr h)
        · rcases List.mem_cons.mp hmem with rfl | hmem2
          · exact Or.inl (Or.inl hq.symm)
          · exact Or.inr ⟨q, hmem2, hq, hcond⟩
    · rw [if_neg hc]
      constructor
      · rintro (h | ⟨q, hmem, hq, hcond⟩)
        · exact Or.inl h
        · exact Or.inr ⟨q, List.mem_cons_of_mem _ hmem, hq, hcond⟩
      · rintro (h | ⟨q, hmem, hq, hcond⟩)
        · exact Or.inl h
        · rcases List.mem_cons.mp hmem with rfl | hmem2
          · exact absurd hcond hc
          · exact Or.inr ⟨q, hmem2, hq, hcond⟩

theorem keys_metricsAccessFromACLs (m : AccessMap) (clusters : List String) (c : String)
    (hnd : (mapKeys m).Nodup) :
    containsKeyMap (metricsAccessFromACLs m clusters) c ↔
      containsKeyMap m c ∧ (metricsNamespaceKeys (lookupMap m c) ≠ [] ∨ c ∈ clusters) := by
  unfold metricsAccessFromACLs
  rw [keys_decodeFold]
  simp only [containsKeyMap, mapKeys, List.map_nil, List.not_mem_nil, false_or]
  constructor
  · rintro ⟨q, hmem, rfl, hcond⟩
    have hl : lookupMap m q.1 = q.2 := lookup_eq_of_mem_keysNodup q.1 q.2 m hnd (by
      rcases q with ⟨a, b⟩
      exact hmem)
    refine ⟨List.mem_map_of_mem Prod.fst hmem, ?_⟩
    rw [hl]
    rcases hcond with h | h
    · exact Or.inl (List.ne_nil_of_length_pos h)
    · exact Or.inr h
  · rintro ⟨hkey, hcond⟩
    rcases List.mem_map.mp hkey with ⟨q, hmem, hq⟩
    have hl : lookupMap m c = q.2 := by
      rw [← hq]
      exact lookup_eq_of_mem_keysNodup q.1 q.2 m hnd (by
        rcases q with ⟨a, b⟩
        exact hmem)
    refine ⟨q, hmem, hq, ?_⟩
    rw [hl] at hcond
    rw [hq]
    rcases hcond with h | h
    · exact Or.inl (List.length_pos.mpr h)
    · exact Or.inr h

/-- Key characterization of GetMetricsAccess: a cluster is a key exactly
when its entry in the resource-access map decodes to at least one namespace,
or it was explicitly requested. -/
theorem keys_GetMetricsAccess (resourceRules : List ResourceRule) (clusters : List String)
    (c : String) :
    containsKeyMap (GetMetricsAccess resourceRules clusters) c ↔
      metricsNamespaceKeys
        (lookupMap (GetResourceAccess resourceRules MetricsACLConfig.groupRes clusters) c) ≠ [] ∨
      c ∈ clusters := by
  unfold GetMetricsAccess
  rw [keys_metricsAccessFromACLs _ _ _ (keysNodup_GetResourceAccess _ _ _)]
  constructor
  · rintro ⟨_, h⟩
    exact h
  · intro h
    refine ⟨?_, h⟩
    rcases h with h | h
    · by_contra hkey
      rw [lookupMap_eq_nil_of_not_containsKey _ _ hkey] at h
      exact h rfl
    · exact (keys_GetResourceAccess _ _ _ _).mpr (Or.inr h)

theorem valuesNodup_metricsAccessFromACLs (m : AccessMap) (clusters : List String) :
    ∀ q ∈ metricsAccessFromACLs m clusters, q.2.Nodup := by
  unfold metricsAccessFromACLs
  have hgen : ∀ (m2 : AccessMap) (acc : AccessMap), (∀ q ∈ acc, q.2.Nodup) →
      ∀ q ∈ (m2.foldl (fun metricsAccessResults entry =>
        let nsWithMetricsAccess := metricsNamespaceKeys entry.2
        if nsWithMetricsAccess.length > 0 ∨ entry.1 ∈ clusters then
          insertMap metricsAccessResults entry.1 nsWithMetricsAccess
        else metricsAccessResults) acc), q.2.Nodup := by
    intro m2
    induction m2 with
    | nil => intro acc h; simpa using h
    | cons p rest ih =>
      intro acc h
      simp only [List.foldl_cons]
      refine ih _ ?_
      by_cases hc : (metricsNamespaceKeys p.2).length > 0 ∨ p.1 ∈ clusters
      · rw [if_pos hc]
        intro q hq
        rcases mem_entry_insertMap _ _ q acc hq with h2 | h2
        · exact h q h2
        · rw [h2]
          exact nodup_metricsNamespaceKeys _
      · rw [if_neg hc]
        exact h
  exact hgen m [] (by simp)

/-! ### The verified claims -/

/-- C1: for every rule list and target group/resource, GetResourceAccess
merges a rule's verbs into the entry of a name if and only if the rule
matches the target (its apiGroups contain the target group or "*", and its
resources contain the target resource or "*") and covers that name: a
matching rule with non-empty resourceNames contributes to those of its
names that are requested (or all of them when none are requested), a
matching rule with empty resourceNames contributes to every requested name,
or to the sentinel "*" when no names are requested; non-matching rules
contribute nothing. -/
theorem getResourceAccess_merges_verbs_iff (resourceRules : List ResourceRule)
    (gr : GroupResource) (resourcenames : List String) (n v : String) :
    v ∈ lookupMap (GetResourceAccess resourceRules gr resourcenames) n ↔
      ∃ rule ∈ resourceRules,
        ((gr.Group ∈ rule.APIGroups ∨ "*" ∈ rule.APIGroups) ∧
          (gr.Resource ∈ rule.Resources ∨ "*" ∈ rule.Resources)) ∧
        v ∈ rule.Verbs ∧
        (if rule.ResourceNames.length ≠ 0 then
          n ∈ rule.ResourceNames ∧ (resourcenames.length = 0 ∨ n ∈ resourcenames)
        else if resourcenames.length ≠ 0 then
          n ∈ resourcenames
        else n = "*") :=
  mem_GetResourceAccess resourceRules gr resourcenames n v

/-- C2: when resource names are requested, the GetResourceAccess result has
an entry for every requested name, and a requested name to which no
matching rule contributes is mapped to the empty list rather than being
absent. -/
theorem getResourceAccess_requested_names_present (resourceRules : List ResourceRule)
    (gr : GroupResource) (resourcenames : List String) (_hne : resourcenames ≠ [])
    (n : String) (hn : n ∈ resourcenames) :
    containsKeyMap (GetResourceAccess resourceRules gr resourcenames) n ∧
      ((∀ rule ∈ resourceRules,
          ¬ (ruleMatchesGroupResource rule gr ∧ ruleNameCond rule resourcenames n)) →
        lookupMap (GetResourceAccess resourceRules gr resourcenames) n = []) := by
  constructor
  · exact (keys_GetResourceAccess resourceRules gr resourcenames n).mpr (Or.inr hn)
  · intro hnone
    rw [List.eq_nil_iff_forall_not_mem]
    intro v hv
    rcases (mem_GetResourceAccess resourceRules gr resourcenames n v).mp hv with
      ⟨rule, hmem, hmatch, _, hcond⟩
    exact hnone rule hmem ⟨hmatch, hcond⟩

theorem getResourceAccess_requested_names_present_witness :
    containsKeyMap (GetResourceAccess [] MetricsACLConfig.groupRes ["blah"]) "blah" ∧
      lookupMap (GetResourceAccess [] MetricsACLConfig.groupRes ["blah"]) "blah" = [] := by
  have h := getResourceAccess_requested_names_present []
    MetricsACLConfig.groupRes ["blah"] (by decide) "blah" (by decide)
  exact ⟨h.1, h.2 (by simp)⟩

/-- C3: the GetMetricsAccess result has an entry for a cluster name if and
only if the namespace list decoded from that cluster's verbs is non-empty,
or the cluster name is one of the explicitly requested clusters. -/
theorem getMetricsAccess_entry_iff (resourceRules : List ResourceRule)
    (clusters : List String) (c : String) :
    containsKeyMap (GetMetricsAccess resourceRules clusters) c ↔
      metricsNamespaceKeys
        (lookupMap (GetResourceAccess resourceRules MetricsACLConfig.groupRes clusters) c)
        ≠ [] ∨
      c ∈ clusters :=
  keys_GetMetricsAccess resourceRules clusters c

/-- C4: the metrics decoding of a cluster's verb list produces exactly the
suffix after "metrics/" for every verb starting with that marker, the
sentinel "*" for a verb that is exactly "*", and nothing for any other
verb. -/
theorem metricsNamespaceKeys_exact (clusteracls : List String) (ns : String) :
    ns ∈ metricsNamespaceKeys clusteracls ↔
      (∃ acl ∈ clusteracls, hasPre acl MetricsACLConfig.verb = true ∧
        ns = trimLeading acl MetricsACLConfig.verb) ∨
      ("*" ∈ clusteracls ∧ ns = "*") :=
  mem_metricsNamespaceKeys clusteracls ns

/-- C5: verb merging with addUniqueItems has set-union semantics: merging
the same items twice changes nothing, a merge of two collections contains
exactly their union and is insensitive to the order of the two collections,
and any chain of merges starting from the empty accumulator is
duplicate-free. -/
theorem addUniqueItems_set_semantics :
    (∀ (itemlist itemsToAdd : List String),
      addUniqueItems (addUniqueItems itemlist itemsToAdd) itemsToAdd =
        addUniqueItems itemlist itemsToAdd) ∧
    (∀ (xs ys : List String) (v : String),
      v ∈ addUniqueItems (addUniqueItems [] xs) ys ↔ v ∈ xs ∨ v ∈ ys) ∧
    (∀ (xs ys : List String) (v : String),
      v ∈ addUniqueItems (addUniqueItems [] xs) ys ↔
        v ∈ addUniqueItems (addUniqueItems [] ys) xs) ∧
    (∀ (contributions : List (List String)),
      (contributions.foldl addUniqueItems []).Nodup) := by
  have hmem : ∀ (xs ys : List String) (v : String),
      v ∈ addUniqueItems (addUniqueItems [] xs) ys ↔ v ∈ xs ∨ v ∈ ys := by
    intro xs ys v
    rw [mem_addUniqueItems, mem_addUniqueItems]
    simp
  refine ⟨addUniqueItems_idem, hmem, ?_, ?_⟩
  · intro xs ys v
    rw [hmem, hmem]
    tauto
  · intro contributions
    have hgen : ∀ (ls : List (List String)) (acc : List String), acc.Nodup →
        (ls.foldl addUniqueItems acc).Nodup := by
      intro ls
      induction ls with
      | nil => intro acc h; simpa using h
      | cons l rest ih =>
        intro acc h
        simp only [List.foldl_cons]
        exact ih _ (nodup_addUniqueItems _ _ h)
    exact hgen contributions [] (by simp)

/-- C6 counterexample: swapping two matching rules with different verbs
changes the literal GetResourceAccess result, because the verbs are
appended to the entry's slice in rule order. -/
theorem getResourceAccess_rule_order_counterexample :
    ([{ APIGroups := ["g"], Resources := ["r"], ResourceNames := [], Verbs := ["A"] },
      { APIGroups := ["g"], Resources := ["r"], ResourceNames := [], Verbs := ["B"] }] :
        List ResourceRule).Perm
      [{ APIGroups := ["g"], Resources := ["r"], ResourceNames := [], Verbs := ["B"] },
       { APIGroups := ["g"], Resources := ["r"], ResourceNames := [], Verbs := ["A"] }] ∧
    GetResourceAccess
        [{ APIGroups := ["g"], Resources := ["r"], ResourceNames := [], Verbs := ["A"] },
         { APIGroups := ["g"], Resources := ["r"], ResourceNames := [], Verbs := ["B"] }]
        { Group := "g", Resource := "r" } [] ≠
      GetResourceAccess
        [{ APIGroups := ["g"], Resources := ["r"], ResourceNames := [], Verbs := ["B"] },
         { APIGroups := ["g"], Resources := ["r"], ResourceNames := [], Verbs := ["A"] }]
        { Group := "g", Resource := "r" } [] := by
  constructor
  · exact List.Perm.swap _ _ _
  · decide

/-- C6 amended: permuting the input rules preserves the key set of the
GetResourceAccess result and the set of verbs in every entry; only the
order of verbs inside an entry's list may change. -/
theorem getResourceAccess_perm_rules (rules1 rules2 : List ResourceRule)
    (gr : GroupResource) (resourcenames : List String) (h : rules1.Perm rules2) :
    (∀ n, containsKeyMap (GetResourceAccess rules1 gr resourcenames) n ↔
      containsKeyMap (GetResourceAccess rules2 gr resourcenames) n) ∧
    (∀ n v, v ∈ lookupMap (GetResourceAccess rules1 gr resourcenames) n ↔
      v ∈ lookupMap (GetResourceAccess rules2 gr resourcenames) n) := by
  constructor
  · intro n
    rw [keys_GetResourceAccess, keys_GetResourceAccess]
    constructor
    · rintro (⟨rule, hmem, hrest⟩ | hn)
      · exact Or.inl ⟨rule, h.mem_iff.mp hmem, hrest⟩
      · exact Or.inr hn
    · rintro (⟨rule, hmem, hrest⟩ | hn)
      · exact Or.inl ⟨rule, h.mem_iff.mpr hmem, hrest⟩
      · exact Or.inr hn
  · intro n v
    rw [mem_GetResourceAccess, mem_GetResourceAccess]
    constructor
    · rintro ⟨rule, hmem, hrest⟩
      exact ⟨rule, h.mem_iff.mp hmem, hrest⟩
    · rintro ⟨rule, hmem, hrest⟩
      exact ⟨rule, h.mem_iff.mpr hmem, hrest⟩

theorem getResourceAccess_perm_rules_witness :
    (containsKeyMap (GetResourceAccess
        [{ APIGroups := ["g"], Resources := ["r"], ResourceNames := [], Verbs := ["A"] },
         { APIGroups := ["g"], Resources := ["r"], ResourceNames := [], Verbs := ["B"] }]
        { Group := "g", Resource := "r" } []) "*" ↔
      containsKeyMap (GetResourceAccess
        [{ APIGroups := ["g"], Resources := ["r"], ResourceNames := [], Verbs := ["B"] },
         { APIGroups := ["g"], Resources := ["r"], ResourceNames := [], Verbs := ["A"] }]
        { Group := "g", Resource := "r" } []) "*") ∧
    ("A" ∈ lookupMap (GetResourceAccess
        [{ APIGroups := ["g"], Resources := ["r"], ResourceNames := [], Verbs := ["A"] },
         { APIGroups := ["g"], Resources := ["r"], ResourceNames := [], Verbs := ["B"] }]
        { Group := "g", Resource := "r" } []) "*" ↔
      "A" ∈ lookupMap (GetResourceAccess
        [{ APIGroups := ["g"], Resources := ["r"], ResourceNames := [], Verbs := ["B"] },
         { APIGroups := ["g"], Resources := ["r"], ResourceNames := [], Verbs := ["A"] }]
        { Group := "g", Resource := "r" } []) "*") :=
  ⟨(getResourceAccess_perm_rules _ _ { Group := "g", Resource := "r" } []
      (List.Perm.swap _ _ _)).1 "*",
   (getResourceAccess_perm_rules _ _ { Group := "g", Resource := "r" } []
      (List.Perm.swap _ _ _)).2 "*" "A"⟩

/-! ### C7: determinism of GetMetricsAccess results -/

theorem forall₂_entry_mem_left {R : (String × List String) → (String × List String) → Prop} :
    ∀ {l1 l2 : AccessMap}, List.Forall₂ R l1 l2 → ∀ q ∈ l1, ∃ q2 ∈ l2, R q q2 := by
  intro l1 l2 h
  induction h with
  | nil =>
    intro q hq
    exact absurd hq (List.not_mem_nil _)
  | cons hab htail ih =>
    intro q hq
    rcases List.mem_cons.mp hq with rfl | hq2
    · exact ⟨_, List.mem_cons_self _ _, hab⟩
    · rcases ih q hq2 with ⟨q2, hq2mem, hr⟩
      exact ⟨q2, List.mem_cons_of_mem _ hq2mem, hr⟩

theorem possible_compose (canonResult : AccessMap) :
    ∀ (r1 r2 : AccessMap),
    List.Forall₂ (fun p q => p.1 = q.1 ∧ p.2.Perm q.2) r1 canonResult →
    List.Forall₂ (fun p q => p.1 = q.1 ∧ p.2.Perm q.2) r2 canonResult →
    List.Forall₂ (fun p q => p.1 = q.1 ∧ p.2.Perm q.2) r1 r2 := by
  induction canonResult with
  | nil =>
    intro r1 r2 h1 h2
    cases h1
    cases h2
    exact List.Forall₂.nil
  | cons q rest ih =>
    intro r1 r2 h1 h2
    cases h1 with
    | cons ha htail1 =>
      cases h2 with
      | cons hb htail2 =>
        exact List.Forall₂.cons ⟨ha.1.trans hb.1.symm, ha.2.trans hb.2.symm⟩
          (ih _ _ htail1 htail2)

/-- C7 counterexample: with the very same input, GetMetricsAccess may
return a cluster's namespace slice in two different orders, because the
slice is built by ranging over a Go map whose iteration order is
unspecified; the result is not deterministic, and in particular the
namespace order is not the first-seen insertion order. -/
theorem getMetricsAccess_order_counterexample :
    possibleMetricsResult
      [{ APIGroups := ["cluster.open-cluster-management.io"], Resources := ["managedclusters"],
         ResourceNames := [], Verbs := ["metrics/ns1", "metrics/ns2"] }] []
      [("*", ["ns1", "ns2"])] ∧
    possibleMetricsResult
      [{ APIGroups := ["cluster.open-cluster-management.io"], Resources := ["managedclusters"],
         ResourceNames := [], Verbs := ["metrics/ns1", "metrics/ns2"] }] []
      [("*", ["ns2", "ns1"])] ∧
    ([(("*" : String), ["ns1", "ns2"])] : AccessMap) ≠ [("*", ["ns2", "ns1"])] := by
  have hc : GetMetricsAccess
      [{ APIGroups := ["cluster.open-cluster-management.io"], Resources := ["managedclusters"],
         ResourceNames := [], Verbs := ["metrics/ns1", "metrics/ns2"] }] [] =
      [("*", ["ns1", "ns2"])] := by decide
  refine ⟨?_, ?_, by decide⟩
  · unfold possibleMetricsResult
    rw [hc]
    exact List.Forall₂.cons ⟨rfl, List.Perm.refl _⟩ List.Forall₂.nil
  · unfold possibleMetricsResult
    rw [hc]
    exact List.Forall₂.cons ⟨rfl, List.Perm.swap _ _ _⟩ List.Forall₂.nil

/-- C7 amended: for a fixed input, any two possible GetMetricsAccess
results have the same cluster keys in the same order and, for each cluster,
namespace sequences that are permutations of each other and duplicate-free;
only the order within each namespace sequence may differ between
evaluations, following the unspecified Go map iteration order. -/
theorem getMetricsAccess_deterministic_up_to_order (resourceRules : List ResourceRule)
    (clusters : List String) (r1 r2 : AccessMap)
    (h1 : possibleMetricsResult resourceRules clusters r1)
    (h2 : possibleMetricsResult resourceRules clusters r2) :
    List.Forall₂ (fun p q => p.1 = q.1 ∧ p.2.Perm q.2) r1 r2 ∧
    ∀ q ∈ r1, q.2.Nodup := by
  unfold possibleMetricsResult at h1 h2
  constructor
  · exact possible_compose _ _ _ h1 h2
  · intro q hq
    rcases forall₂_entry_mem_left h1 q hq with ⟨q2, hq2mem, hr⟩
    have hq2nodup : q2.2.Nodup := by
      unfold GetMetricsAccess at hq2mem
      exact valuesNodup_metricsAccessFromACLs _ _ q2 hq2mem
    exact (hr.2.nodup_iff).mpr hq2nodup

theorem getMetricsAccess_deterministic_up_to_order_witness :
    List.Forall₂ (fun p q => p.1 = q.1 ∧ p.2.Perm q.2)
      ([(("*" : String), ["ns1", "ns2"])] : AccessMap) [("*", ["ns2", "ns1"])] ∧
    (["ns1", "ns2"] : List String).Nodup := by
  have hc : GetMetricsAccess
      [{ APIGroups := ["cluster.open-cluster-management.io"], Resources := ["managedclusters"],
         ResourceNames := [], Verbs := ["metrics/ns1", "metrics/ns2"] }] [] =
      [("*", ["ns1", "ns2"])] := by decide
  have h1 : possibleMetricsResult
      [{ APIGroups := ["cluster.open-cluster-management.io"], Resources := ["managedclusters"],
         ResourceNames := [], Verbs := ["metrics/ns1", "metrics/ns2"] }] []
      [("*", ["ns1", "ns2"])] := by
    unfold possibleMetricsResult
    rw [hc]
    exact List.Forall₂.cons ⟨rfl, List.Perm.refl _⟩ List.Forall₂.nil
  have h2 : possibleMetricsResult
      [{ APIGroups := ["cluster.open-cluster-management.io"], Resources := ["managedclusters"],
         ResourceNames := [], Verbs := ["metrics/ns1", "metrics/ns2"] }] []
      [("*", ["ns2", "ns1"])] := by
    unfold possibleMetricsResult
    rw [hc]
    exact List.Forall₂.cons ⟨rfl, List.Perm.swap _ _ _⟩ List.Forall₂.nil
  have h := getMetricsAccess_deterministic_up_to_order _ _ _ _ h1 h2
  exact ⟨h.1, h.2 ("*", ["ns1", "ns2"]) (by simp)⟩

/-- C8: NewAccessReviewer returns an error when both arguments are nil and
when both are non-nil, and succeeds whenever exactly one of the two is
non-nil. -/
theorem newAccessReviewer_exactly_one :
    NewAccessReviewer none none =
      Except.error "one of either kubeConfig or kubeClient must be a non-nil value" ∧
    (∀ (c : RestConfig) (k : KubeClient),
      NewAccessReviewer (some c) (some k) =
        Except.error "only one of either kubeConfig or kubeClient must be a non-nil value") ∧
    (∀ c : RestConfig, NewAccessReviewer (some c) none =
      Except.ok { kubeConfig := some c, kubeClient := none }) ∧
    (∀ k : KubeClient, NewAccessReviewer none (some k) =
      Except.ok { kubeConfig := none, kubeClient := some k }) := by
  refine ⟨rfl, ?_, ?_, ?_⟩
  · intro c k
    unfold NewAccessReviewer
    rw [if_neg (by simp), if_pos (by simp)]
  · intro c
    unfold NewAccessReviewer
    rw [if_neg (by simp), if_neg (by simp)]
  · intro k
    unfold NewAccessReviewer
    rw [if_neg (by simp), if_neg (by simp)]

/-- C9: when the authority call succeeds, makeSubjectRulesReviewForUser
returns the response's rule list with no error — even when the response
carries a non-empty evaluation-error indicator, which is only logged — and
a hard error is returned exactly when the call itself fails. -/
theorem makeSubjectRulesReview_error_handling
    (createReview : String → Except String SelfSubjectRulesReviewStatus) (ns0 : String) :
    (∀ st : SelfSubjectRulesReviewStatus,
      createReview (if ns0 = "" then "$ Invalid $" else ns0) = Except.ok st →
        makeSubjectRulesReviewForUser createReview ns0 = Except.ok st.ResourceRules) ∧
    (∀ e : String,
      createReview (if ns0 = "" then "$ Invalid $" else ns0) = Except.error e →
        makeSubjectRulesReviewForUser createReview ns0 = Except.error e) := by
  constructor
  · intro st h
    simp only [makeSubjectRulesReviewForUser]
    rw [h]
  · intro e h
    simp only [makeSubjectRulesReviewForUser]
    rw [h]

theorem makeSubjectRulesReview_error_handling_witness :
    makeSubjectRulesReviewForUser
        (fun _ => Except.ok
          { ResourceRules := [], EvaluationError := "incomplete rule evaluation" })
        "testns" = Except.ok [] ∧
    makeSubjectRulesReviewForUser
        (fun _ => Except.error "connection refused") "testns" =
      Except.error "connection refused" :=
  ⟨(makeSubjectRulesReview_error_handling _ "testns").1
      { ResourceRules := [], EvaluationError := "incomplete rule evaluation" } rfl,
   (makeSubjectRulesReview_error_handling _ "testns").2 "connection refused" rfl⟩

/-- C10: when names are explicitly requested, the key set of the
GetResourceAccess result is exactly the set of requested names — in
particular the sentinel "*" is never a key then — and likewise the cluster
keys of GetMetricsAccess equal the requested clusters when clusters are
requested. -/
theorem requested_names_are_exactly_the_keys (resourceRules : List ResourceRule)
    (gr : GroupResource) (resourcenames clusters : List String)
    (h1 : resourcenames ≠ []) (h2 : clusters ≠ []) :
    (∀ k, containsKeyMap (GetResourceAccess resourceRules gr resourcenames) k ↔
      k ∈ resourcenames) ∧
    (∀ c, containsKeyMap (GetMetricsAccess resourceRules clusters) c ↔ c ∈ clusters) := by
  have hkeys : ∀ (names : List String), names ≠ [] → ∀ (gr2 : GroupResource) (k : String),
      containsKeyMap (GetResourceAccess resourceRules gr2 names) k ↔ k ∈ names := by
    intro names hne gr2 k
    rw [keys_GetResourceAccess]
    constructor
    · rintro (⟨rule, _, _, hcond⟩ | hk)
      · have hlen : names.length ≠ 0 := by
          intro h0
          exact hne (List.length_eq_zero.mp h0)
        simp only [ruleNameCond] at hcond
        by_cases hr : rule.ResourceNames.length ≠ 0
        · rw [if_pos hr] at hcond
          rcases hcond.2 with h0 | hk2
          · exact absurd h0 hlen
          · exact hk2
        · rw [if_neg hr, if_pos hlen] at hcond
          exact hcond
      · exact hk
    · intro hk
      exact Or.inr hk
  constructor
  · exact fun k => hkeys resourcenames h1 gr k
  · intro c
    rw [keys_GetMetricsAccess]
    constructor
    · rintro (hns | hc)
      · have hkey : containsKeyMap
            (GetResourceAccess resourceRules MetricsACLConfig.groupRes clusters) c := by
          by_contra hkey
          rw [lookupMap_eq_nil_of_not_containsKey _ _ hkey] at hns
          exact hns rfl
        exact (hkeys clusters h2 MetricsACLConfig.groupRes c).mp hkey
      · exact hc
    · intro hc
      exact Or.inr hc

theorem requested_names_are_exactly_the_keys_witness :
    (containsKeyMap (GetResourceAccess
        [{ APIGroups := ["*"], Resources := ["*"], ResourceNames := [], Verbs := ["*"] }]
        MetricsACLConfig.groupRes ["devcluster1"]) "*" ↔ "*" ∈ ["devcluster1"]) ∧
    (containsKeyMap (GetMetricsAccess
        [{ APIGroups := ["*"], Resources := ["*"], ResourceNames := [], Verbs := ["*"] }]
        ["devcluster1"]) "*" ↔ "*" ∈ ["devcluster1"]) :=
  ⟨(requested_names_are_exactly_the_keys
      [{ APIGroups := ["*"], Resources := ["*"], ResourceNames := [], Verbs := ["*"] }]
      MetricsACLConfig.groupRes ["devcluster1"] ["devcluster1"]
      (by decide) (by decide)).1 "*",
   (requested_names_are_exactly_the_keys
      [{ APIGroups := ["*"], Resources := ["*"], ResourceNames := [], Verbs := ["*"] }]
      MetricsACLConfig.groupRes ["devcluster1"] ["devcluster1"]
      (by decide) (by decide)).2 "*"⟩

/-! ### Model sanity checks mirroring the repository's test expectations -/
theorem sanity_red_user_all_clusters :
    GetMetricsAccess
      [{ APIGroups := ["cluster.open-cluster-management.io"], Resources := ["managedclusters"],
         ResourceNames := ["devcluster1", "devcluster2"], Verbs := ["metrics/nsred1", "metrics/nsred2"] }]
      [] =
      [("devcluster1", ["nsred1", "nsred2"]), ("devcluster2", ["nsred1", "nsred2"])] := by decide

theorem sanity_red_user_one_cluster :
    GetMetricsAccess
      [{ APIGroups := ["cluster.open-cluster-management.io"], Resources := ["managedclusters"],
         ResourceNames := ["devcluster1", "devcluster2"], Verbs := ["metrics/nsred1", "metrics/nsred2"] }]
      ["devcluster1"] =
      [("devcluster1", ["nsred1", "nsred2"])] := by decide

theorem sanity_unknown_cluster_empty :
    GetMetricsAccess
      [{ APIGroups := ["cluster.open-cluster-management.io"], Resources := ["managedclusters"],
         ResourceNames := ["devcluster1", "devcluster2"], Verbs := ["metrics/nsred1", "metrics/nsred2"] }]
      ["blah"] =
      [("blah", [])] := by decide

theorem sanity_cluster_admin_wildcard :
    GetMetricsAccess
      [{ APIGroups := ["*"], Resources := ["*"], ResourceNames := [], Verbs := ["*"] }]
      [] =
      [("*", ["*"])] := by decide

theorem sanity_unrestricted_rule_named_cluster :
    GetMetricsAccess
      [{ APIGroups := ["cluster.open-cluster-management.io"], Resources := ["managedclusters"],
         ResourceNames := [], Verbs := ["metrics/kube-system"] }]
      ["testcluster"] =
      [("testcluster", ["kube-system"])] := by decide

theorem sanity_list_only_user :
    GetMetricsAccess
      [{ APIGroups := ["cluster.open-cluster-management.io"], Resources := ["managedclusters"],
         ResourceNames := [], Verbs := ["list"] }]
      ["devcluster1", "devcluster2"] =
      [("devcluster1", []), ("devcluster2", [])] := by decide
